import Mathlib

/-!
Verification of the pdf-text-extract core (src/extract.py) against its
natural-language specification.

Shallow embedding conventions:
* Python strings are modelled as `List Char`; a text is split on the
  newline character exactly as `text.split(chr(10))` does.
* The built-in removal regexes of `clean_text` are translated, one by one,
  into executable Boolean matchers over the stripped line; a caller-supplied
  pattern (an arbitrary regex matched with `re.match` against the stripped
  line) is modelled as an arbitrary function `List Char → Bool`.
* External tool invocations (pdftotext, rasterizer, OCR engine) are
  modelled at their interface boundary: the classifier receives
  `Option (List Char)` (`none` = the sampling subprocess raised), the
  full text-layer extractor receives `Except ToolError (List Char)`, and
  the OCR extractor receives one `Option (List Char)` per page
  (`none` = OCR raised on that page).
-/

/-- The whitespace characters stripped by the Python `str.strip()` /
`str.split()` defaults, restricted to the ASCII range that the program
actually encounters. -/
def isPySpace (c : Char) : Bool :=
  c = ' ' || c = '\t' || c = '\n' || c = '\r' || c = '\x0b' || c = '\x0c'

/-- Python `line.strip()` on a character list. -/
def pystrip (l : List Char) : List Char :=
  ((l.dropWhile isPySpace).reverse.dropWhile isPySpace).reverse

/-- Case folding used to model `re.IGNORECASE` on the ASCII patterns. -/
def lowerChars (l : List Char) : List Char := l.map Char.toLower

/-- Boolean list-prefix test (needle, haystack). -/
def isPre : List Char → List Char → Bool
  | [], _ => true
  | _ :: _, [] => false
  | a :: as, b :: bs => a = b && isPre as bs

/-- Boolean contiguous-sublist test: does `pat` occur inside the haystack. -/
def hasSub (pat : List Char) : List Char → Bool
  | [] => pat.isEmpty
  | c :: cs => isPre pat (c :: cs) || hasSub pat cs

/-- Python `text.split(chr(10))`: split on every newline, keeping empty
pieces, with the empty string splitting to one empty piece. -/
def splitNL : List Char → List (List Char)
  | [] => [[]]
  | c :: cs => if c = '\n' then [] :: splitNL cs else (splitNL cs).modifyHead (fun l => c :: l)

/-- Python `chr(10).join(lines)`. -/
def joinNL : List (List Char) → List Char
  | [] => []
  | [l] => l
  | l :: ls => l ++ '\n' :: joinNL ls

/-- Require at least one whitespace character, then drop the whole run:
the semantics of a greedy regex fragment matching one-or-more spaces
followed by a non-space literal. -/
def dropWS1 : List Char → Option (List Char)
  | [] => none
  | c :: cs => if isPySpace c then some (cs.dropWhile isPySpace) else none

/-- Built-in rule 1 of `clean_text`: a standalone 1-to-3-digit number.
Translation of matching the whole string against optional whitespace,
one to three digits, optional whitespace (the first entry of
`remove_patterns` in src/extract.py, line 128). -/
def patPageNum (s : List Char) : Bool :=
  let t := s.dropWhile isPySpace
  let d := t.takeWhile Char.isDigit
  decide (1 ≤ d.length) && decide (d.length ≤ 3) && (t.drop d.length).all isPySpace

/-- Built-in rule 2: the word Copyright, optional whitespace, an optional
copyright or registered glyph, optional whitespace, then four digits
(src/extract.py line 129), matched case-insensitively from the start. -/
def patCopyright (s : List Char) : Bool :=
  let l := lowerChars s
  isPre ("copyright".data) l &&
    (let r := (l.drop 9).dropWhile isPySpace
     let r2 := match r with
               | c :: cs => if c = '©' || c = '®' then cs else c :: cs
               | [] => []
     let r3 := r2.dropWhile isPySpace
     decide (4 ≤ r3.length) && (r3.take 4).all Char.isDigit)

/-- Built-in rule 3: optional whitespace, then Access, whitespace,
provided, whitespace, by (src/extract.py line 130), case-insensitive. -/
def patAccess (s : List Char) : Bool :=
  let t := (lowerChars s).dropWhile isPySpace
  isPre ("access".data) t &&
    match dropWS1 (t.drop 6) with
    | none => false
    | some r =>
      isPre ("provided".data) r &&
        match dropWS1 (r.drop 8) with
        | none => false
        | some r2 => isPre ("by".data) r2

/-- Built-in rule 4: DOI: then optional whitespace then 10.
(src/extract.py line 131), case-insensitive. -/
def patDoi (s : List Char) : Bool :=
  let l := lowerChars s
  isPre ("doi:".data) l && isPre ("10.".data) ((l.drop 4).dropWhile isPySpace)

/-- Built-in rule 5: the literal muse.jhu.edu URL head
(src/extract.py line 132), case-insensitive. -/
def patMuse (s : List Char) : Bool :=
  isPre ("http://muse.jhu.edu".data) (lowerChars s)

/-- Built-in rule 6: Published by, any characters on the same line, then
space Press (src/extract.py line 133), case-insensitive.  The dot of the
regex does not cross a newline, hence the takeWhile. -/
def patPublished (s : List Char) : Bool :=
  let l := lowerChars s
  isPre ("published by ".data) l &&
    hasSub (" press".data) ((l.drop 13).takeWhile (fun c => c != '\n'))

/-- The fixed built-in rule list `remove_patterns` of `clean_text`
(src/extract.py lines 127-134). -/
def remove_patterns : List (List Char → Bool) :=
  [patPageNum, patCopyright, patAccess, patDoi, patMuse, patPublished]

/-- Does any compiled pattern match the (stripped) line, the inner loop of
src/extract.py lines 152-156. -/
def matchesAny (pats : List (List Char → Bool)) (s : List Char) : Bool :=
  pats.any (fun p => p s)

/-- The line-by-line pass of `clean_text` (src/extract.py lines 142-159).
The Boolean argument records whether the `cleaned` accumulator is already
nonempty, which in the source is tested as `if cleaned:` before a blank
line is appended; emitted blank lines are the empty string. -/
def cleanLoop (pats : List (List Char → Bool)) : List (List Char) → Bool → List (List Char)
  | [], _ => []
  | line :: rest, started =>
    let stripped := pystrip line
    if stripped.isEmpty then
      (if started then [] :: cleanLoop pats rest started else cleanLoop pats rest started)
    else if matchesAny pats stripped then
      cleanLoop pats rest started
    else
      line :: cleanLoop pats rest true

/-- Is the line blank after stripping. -/
def isBlankL (l : List Char) : Bool := (pystrip l).isEmpty

/-- The two edge-trimming while loops of `clean_text`
(src/extract.py lines 162-165). -/
def trimBlanks (ls : List (List Char)) : List (List Char) :=
  ((ls.dropWhile isBlankL).reverse.dropWhile isBlankL).reverse

/-- The final regex normalisation of `clean_text` (src/extract.py
line 170): every maximal run of four or more newlines is replaced by
exactly three.  `pending` counts newlines seen but not yet emitted. -/
def collapseNLAux : Nat → List Char → List Char
  | pending, [] => List.replicate (min pending 3) '\n'
  | pending, c :: cs =>
    if c = '\n' then collapseNLAux (pending + 1) cs
    else List.replicate (min pending 3) '\n' ++ c :: collapseNLAux 0 cs

/-- Replacement of runs of four or more newlines by three, applied to a
whole string. -/
def collapseNL (cs : List Char) : List Char := collapseNLAux 0 cs

/-- The Boilerplate Filter `clean_text` (src/extract.py lines 121-172):
split on newlines, run the keep/drop line pass with the built-in plus
caller-supplied patterns, trim blank edges, join, and cap newline runs. -/
def clean_text (text : List Char) (custom_headers : List (List Char → Bool)) : List Char :=
  let lines := splitNL text
  let patterns := remove_patterns ++ custom_headers
  let cleaned := trimBlanks (cleanLoop patterns lines false)
  collapseNL (joinNL cleaned)

/-- Python `text.split()` (whitespace words), as an accumulator recursion;
the first argument is the reversed current word. -/
def splitWS : List Char → List Char → List (List Char)
  | cur, [] => if cur.isEmpty then [] else [cur.reverse]
  | cur, c :: cs =>
    if isPySpace c then
      (if cur.isEmpty then splitWS [] cs else cur.reverse :: splitWS [] cs)
    else splitWS (c :: cur) cs

/-- Number of whitespace-delimited words, Python `len(t.split())`. -/
def word_count (t : List Char) : Nat := (splitWS [] t).length

/-- The Extraction-Method Classifier `is_text_based_pdf`
(src/extract.py lines 67-81).  Its subprocess sampling call on the first
two pages is modelled at the boundary: `some out` is the captured stdout,
`none` means the call raised (missing tool, corrupt file, timeout), which
the source catches and turns into `False`.  On success the source strips
the output and compares the word count against the fixed threshold 50. -/
def is_text_based_pdf (sample : Option (List Char)) : Bool :=
  match sample with
  | some out => decide (50 < word_count (pystrip out))
  | none => false

/-- Failures of an external tool call, at the interface boundary. -/
inductive ToolError where
  | timeout : ToolError
  | failed : ToolError
deriving DecidableEq

/-- The Text-Layer Extractor `extract_with_pdftotext`
(src/extract.py lines 83-92): the whole-document pdftotext call is
modelled at the boundary as an `Except` value; the source wraps it in no
try/except, so a failure propagates to the caller unchanged and a success
returns the captured stdout. -/
def extract_with_pdftotext (result : Except ToolError (List Char)) : Except ToolError (List Char) :=
  match result with
  | Except.ok out => Except.ok out
  | Except.error e => Except.error e

/-- Text contributed by one OCR page (src/extract.py lines 109-117):
the recognised text on success, the bracketed 1-indexed error placeholder
when the per-page OCR call raised; `i` is the 0-based page index. -/
def ocrPage (i : Nat) (r : Option (List Char)) : List Char :=
  match r with
  | some t => t
  | none => ("[OCR ERROR on page " ++ Nat.repr (i + 1) ++ "]").data

/-- Per-page loop of `extract_with_ocr`, in page order. -/
def ocrPages : Nat → List (Option (List Char)) → List (List Char)
  | _, [] => []
  | i, r :: rs => ocrPage i r :: ocrPages (i + 1) rs

/-- Python `(chr(10) + chr(10)).join(parts)`. -/
def joinBlank : List (List Char) → List Char
  | [] => []
  | [l] => l
  | l :: ls => l ++ '\n' :: '\n' :: joinBlank ls

/-- The OCR Extractor `extract_with_ocr` (src/extract.py lines 94-119):
rasterisation and per-page OCR are modelled at the boundary as one
`Option (List Char)` per page; the page texts (or placeholders) are
joined with a double newline. -/
def extract_with_ocr (pages : List (Option (List Char))) : List Char :=
  joinBlank (ocrPages 0 pages)

/-- The Pipeline Orchestrator, the extraction part of `main`
(src/extract.py lines 209-227): forced OCR overrides forced text
overrides the classifier; exactly one extractor runs; cleaning runs
unless disabled; an error of the text-layer extractor propagates. -/
def run_pipeline (force_ocr force_text no_clean : Bool)
    (headers : List (List Char → Bool)) (sample : Option (List Char))
    (full : Except ToolError (List Char)) (pages : List (Option (List Char))) :
    Except ToolError (List Char) :=
  let use_ocr := if force_ocr then true else if force_text then false else ! is_text_based_pdf sample
  match (if use_ocr then Except.ok (extract_with_ocr pages) else extract_with_pdftotext full) with
  | Except.ok text => Except.ok (if no_clean then text else clean_text text headers)
  | Except.error e => Except.error e

/-- Number of leading newline characters; runs of newlines are bounded by
bounding `leadNL` over all suffixes. -/
def leadNL : List Char → Nat
  | [] => 0
  | c :: cs => if c = '\n' then leadNL cs + 1 else 0

/-- Specification mirror of `collapseNLAux` acting on a list of
newline-free lines before they are joined: `capJ p ls` is the collapse of
`p` pending newlines followed by the join of `ls`. -/
def capJ : Nat → List (List Char) → List Char
  | p, [] => List.replicate (min p 3) '\n'
  | p, [l] => List.replicate (min p 3) '\n' ++ l
  | p, l :: ls =>
    if l = [] then capJ (p + 1) ls
    else List.replicate (min p 3) '\n' ++ l ++ capJ 1 ls

/-! ### Lemmas about splitting and joining on newlines -/

theorem splitNL_ne_nil : ∀ x : List Char, splitNL x ≠ [] := by
  intro x
  induction x with
  | nil => simp [splitNL]
  | cons c cs ih =>
    simp only [splitNL]
    split
    · simp
    · cases h : splitNL cs with
      | nil => exact absurd h ih
      | cons a t => simp [h, List.modifyHead]

/-- Unfolding of `splitNL` on a non-newline head, exposing the head piece. -/
theorem splitNL_cons_ne (c : Char) (cs : List Char) (h : ¬ c = '\n') :
    ∃ a t, splitNL cs = a :: t ∧ splitNL (c :: cs) = (c :: a) :: t := by
  cases hE : splitNL cs with
  | nil => exact absurd hE (splitNL_ne_nil cs)
  | cons a t =>
    refine ⟨a, t, rfl, ?_⟩
    simp [splitNL, h, hE, List.modifyHead]

theorem splitNL_cons_nl (cs : List Char) : splitNL ('\n' :: cs) = [] :: splitNL cs := by
  simp [splitNL]

theorem joinNL_cons (l : List Char) (ls : List (List Char)) (h : ls ≠ []) :
    joinNL (l :: ls) = l ++ '\n' :: joinNL ls := by
  cases ls with
  | nil => exact absurd rfl h
  | cons a t => rfl

theorem joinNL_splitNL : ∀ x : List Char, joinNL (splitNL x) = x := by
  intro x
  induction x with
  | nil => rfl
  | cons c cs ih =>
    by_cases h : c = '\n'
    · subst h
      rw [splitNL_cons_nl, joinNL_cons _ _ (splitNL_ne_nil cs)]
      simp [ih]
    · obtain ⟨a, t, ha, hc⟩ := splitNL_cons_ne c cs h
      rw [hc]
      cases t with
      | nil => rw [ha] at ih; simpa [joinNL] using congrArg (fun z => c :: z) ih
      | cons b t2 =>
        rw [joinNL_cons _ _ (by simp)]
        rw [ha] at ih
        rw [joinNL_cons _ _ (by simp)] at ih
        simpa using congrArg (fun z => c :: z) ih

theorem mem_splitNL_free : ∀ (x : List Char) (l : List Char), l ∈ splitNL x → '\n' ∉ l := by
  intro x
  induction x with
  | nil =>
    intro l hl
    have : l = [] := by simpa [splitNL] using hl
    simp [this]
  | cons c cs ih =>
    intro l hl
    by_cases h : c = '\n'
    · subst h; rw [splitNL_cons_nl] at hl
      rcases List.mem_cons.mp hl with h1 | h1
      · simp [h1]
      · exact ih l h1
    · obtain ⟨a, t, ha, hc⟩ := splitNL_cons_ne c cs h
      rw [hc] at hl
      rcases List.mem_cons.mp hl with h1 | h1
      · subst h1
        intro hmem
        rcases List.mem_cons.mp hmem with h2 | h2
        · exact h h2.symm
        · exact ih a (by rw [ha]; exact List.mem_cons_self a t) h2
      · exact ih l (by rw [ha]; exact List.mem_cons_of_mem a h1)

theorem splitNL_of_free : ∀ l : List Char, '\n' ∉ l → splitNL l = [l] := by
  intro l
  induction l with
  | nil => intro _; rfl
  | cons c cs ih =>
    intro h
    have hc : ¬ c = '\n' := by intro hh; exact h (by simp [hh])
    obtain ⟨a, t, ha, hsplit⟩ := splitNL_cons_ne c cs hc
    have : splitNL cs = [cs] := ih (by intro hh; exact h (List.mem_cons_of_mem c hh))
    rw [this] at ha
    cases ha
    simpa using hsplit

theorem splitNL_append_free (l z : List Char) (h : '\n' ∉ l) :
    splitNL (l ++ '\n' :: z) = l :: splitNL z := by
  induction l with
  | nil => simpa using splitNL_cons_nl z
  | cons c cs ih =>
    have hc : ¬ c = '\n' := by intro hh; exact h (by simp [hh])
    have ihr : splitNL (cs ++ '\n' :: z) = cs :: splitNL z :=
      ih (by intro hh; exact h (List.mem_cons_of_mem c hh))
    have : splitNL (c :: (cs ++ '\n' :: z)) = (c :: cs) :: splitNL z := by
      obtain ⟨a, t, ha, hsplit⟩ := splitNL_cons_ne c (cs ++ '\n' :: z) hc
      rw [ihr] at ha
      cases ha
      exact hsplit
    simpa using this

theorem splitNL_replicate_append (k : Nat) (x : List Char) :
    splitNL (List.replicate k '\n' ++ x) = List.replicate k [] ++ splitNL x := by
  induction k with
  | zero => simp
  | succ n ih =>
    rw [List.replicate_succ, List.cons_append, splitNL_cons_nl, ih, List.replicate_succ]
    rfl

/-! ### Lemmas about the newline-run collapse -/

theorem collapse_cons_nl (p : Nat) (cs : List Char) :
    collapseNLAux p ('\n' :: cs) = collapseNLAux (p + 1) cs := by
  simp [collapseNLAux]

theorem collapse_cons_ne (p : Nat) (c : Char) (cs : List Char) (h : ¬ c = '\n') :
    collapseNLAux p (c :: cs) = List.replicate (min p 3) '\n' ++ c :: collapseNLAux 0 cs := by
  simp [collapseNLAux, h]

theorem collapse_flush0 : ∀ (l rest : List Char), '\n' ∉ l →
    collapseNLAux 0 (l ++ rest) = l ++ collapseNLAux 0 rest := by
  intro l
  induction l with
  | nil => intro rest _; rfl
  | cons c cs ih =>
    intro rest h
    have hc : ¬ c = '\n' := fun hh => h (by simp [hh])
    rw [List.cons_append, collapse_cons_ne 0 c _ hc,
      ih rest (fun hh => h (List.mem_cons_of_mem c hh))]
    simp

theorem collapse_flush (l : List Char) (p : Nat) (rest : List Char)
    (hfree : '\n' ∉ l) (hne : l ≠ []) :
    collapseNLAux p (l ++ rest) =
      List.replicate (min p 3) '\n' ++ (l ++ collapseNLAux 0 rest) := by
  cases l with
  | nil => exact absurd rfl hne
  | cons c cs =>
    have hc : ¬ c = '\n' := fun hh => hfree (by simp [hh])
    rw [List.cons_append, collapse_cons_ne p c _ hc,
      collapse_flush0 cs rest (fun hh => hfree (List.mem_cons_of_mem c hh))]
    simp

theorem collapse_replicate (q k : Nat) (y : List Char) :
    collapseNLAux q (List.replicate k '\n' ++ y) = collapseNLAux (q + k) y := by
  induction k generalizing q with
  | zero => simp
  | succ n ih =>
    rw [List.replicate_succ, List.cons_append, collapse_cons_nl, ih]
    congr 1
    omega

/-- The pending newline count saturates at three. -/
theorem collapse_sat : ∀ (cs : List Char) (p : Nat),
    collapseNLAux p cs = collapseNLAux (min p 3) cs := by
  intro cs
  induction cs with
  | nil =>
    intro p
    show List.replicate (min p 3) '\n' = List.replicate (min (min p 3) 3) '\n'
    congr 1
    omega
  | cons c cs ih =>
    intro p
    by_cases h : c = '\n'
    · subst h
      rw [collapse_cons_nl, collapse_cons_nl, ih (p + 1), ih (min p 3 + 1)]
      congr 1
      omega
    · rw [collapse_cons_ne p c cs h, collapse_cons_ne _ c _ h]
      congr 2
      omega

theorem collapse_collapse : ∀ (cs : List Char) (p q : Nat),
    collapseNLAux q (collapseNLAux p cs) = collapseNLAux (min (q + min p 3) 3) cs := by
  intro cs
  induction cs with
  | nil =>
    intro p q
    have h1 : collapseNLAux p [] = List.replicate (min p 3) '\n' ++ [] := by simp [collapseNLAux]
    rw [h1, collapse_replicate]
    have h3 : collapseNLAux (q + min p 3) [] = List.replicate (min (q + min p 3) 3) '\n' := rfl
    have h4 : collapseNLAux (min (q + min p 3) 3) [] =
        List.replicate (min (min (q + min p 3) 3) 3) '\n' := rfl
    rw [h3, h4]
    congr 1
    omega
  | cons c cs ih =>
    intro p q
    by_cases h : c = '\n'
    · subst h
      rw [collapse_cons_nl, collapse_cons_nl, ih,
        collapse_sat cs (min (q + min p 3) 3 + 1)]
      congr 1
      omega
    · rw [collapse_cons_ne p c cs h, collapse_replicate, collapse_cons_ne _ c _ h, ih,
        collapse_cons_ne _ c _ h]
      have h5 : min (0 + min 0 3) 3 = 0 := by decide
      have h6 : min (min (q + min p 3) 3) 3 = min (q + min p 3) 3 := by omega
      rw [h5, h6]

/-- The collapse pass is idempotent. -/
theorem collapseNL_idem (cs : List Char) : collapseNL (collapseNL cs) = collapseNL cs := by
  show collapseNLAux 0 (collapseNLAux 0 cs) = collapseNLAux 0 cs
  rw [collapse_collapse]
  have h : min (0 + min 0 3) 3 = 0 := by omega
  rw [h]

/-! ### The collapse pass acting on joined lines -/

theorem capJ_nil (p : Nat) : capJ p [] = List.replicate (min p 3) '\n' := rfl

theorem capJ_single (p : Nat) (l : List Char) :
    capJ p [l] = List.replicate (min p 3) '\n' ++ l := rfl

theorem capJ_cons_blank (p : Nat) (x : List Char) (ls : List (List Char)) :
    capJ p ([] :: x :: ls) = capJ (p + 1) (x :: ls) := by
  simp [capJ]

theorem capJ_cons_ne (p : Nat) (l x : List Char) (ls : List (List Char)) (h : l ≠ []) :
    capJ p (l :: x :: ls) = List.replicate (min p 3) '\n' ++ l ++ capJ 1 (x :: ls) := by
  simp [capJ, h]

theorem capJ_eq : ∀ (ls : List (List Char)) (p : Nat), (∀ l ∈ ls, '\n' ∉ l) →
    collapseNLAux p (joinNL ls) = capJ p ls := by
  intro ls
  induction ls with
  | nil => intro p _; rfl
  | cons l ls ih =>
    intro p hfree
    have hl : '\n' ∉ l := hfree l (List.mem_cons_self l ls)
    have hrest : ∀ m ∈ ls, '\n' ∉ m := fun m hm => hfree m (List.mem_cons_of_mem l hm)
    cases ls with
    | nil =>
      by_cases he : l = []
      · subst he
        show collapseNLAux p [] = capJ p [[]]
        rw [capJ_single]
        simp [collapseNLAux]
      · show collapseNLAux p (joinNL [l]) = capJ p [l]
        have : joinNL [l] = l ++ [] := by simp [joinNL]
        rw [this, collapse_flush l p [] hl he, capJ_single]
        simp [collapseNLAux]
    | cons x ls2 =>
      have hjoin : joinNL (l :: x :: ls2) = l ++ '\n' :: joinNL (x :: ls2) :=
        joinNL_cons l (x :: ls2) (by simp)
      by_cases he : l = []
      · subst he
        rw [hjoin, capJ_cons_blank]
        show collapseNLAux p ('\n' :: joinNL (x :: ls2)) = _
        rw [collapse_cons_nl, ih (p + 1) hrest]
      · rw [hjoin, collapse_flush l p _ hl he, collapse_cons_nl, ih 1 hrest,
          capJ_cons_ne p l x ls2 he]
        simp [List.append_assoc]

theorem capJ_pos : ∀ (ls : List (List Char)) (p : Nat), 1 ≤ p →
    ∃ z, capJ p ls = '\n' :: z := by
  intro ls
  induction ls with
  | nil =>
    intro p hp
    have hm : min p 3 = (min p 3 - 1) + 1 := by omega
    rw [capJ_nil, hm, List.replicate_succ]
    exact ⟨_, rfl⟩
  | cons l ls ih =>
    intro p hp
    cases ls with
    | nil =>
      have hm : min p 3 = (min p 3 - 1) + 1 := by omega
      rw [capJ_single, hm, List.replicate_succ]
      exact ⟨_, rfl⟩
    | cons x ls2 =>
      by_cases he : l = []
      · subst he
        rw [capJ_cons_blank]
        exact ih (p + 1) (by omega)
      · have hm : min p 3 = (min p 3 - 1) + 1 := by omega
        refine ⟨List.replicate (min p 3 - 1) '\n' ++ l ++ capJ 1 (x :: ls2), ?_⟩
        rw [capJ_cons_ne p l x ls2 he, hm, List.replicate_succ]
        simp [List.append_assoc]

theorem capJ_mem : ∀ (ls : List (List Char)) (p : Nat), (∀ l ∈ ls, '\n' ∉ l) →
    ∀ m ∈ splitNL (capJ p ls), m = [] ∨ m ∈ ls := by
  intro ls
  induction ls with
  | nil =>
    intro p _ m hm
    rw [capJ_nil, ← List.append_nil (List.replicate (min p 3) '\n'),
      splitNL_replicate_append] at hm
    rcases List.mem_append.mp hm with h1 | h1
    · exact Or.inl (List.eq_of_mem_replicate h1)
    · left
      simp [splitNL] at h1
      exact h1
  | cons l ls ih =>
    intro p hfree m hm
    have hl : '\n' ∉ l := hfree l (List.mem_cons_self l ls)
    have hrest : ∀ a ∈ ls, '\n' ∉ a := fun a ha => hfree a (List.mem_cons_of_mem l ha)
    cases ls with
    | nil =>
      rw [capJ_single, splitNL_replicate_append, splitNL_of_free l hl] at hm
      rcases List.mem_append.mp hm with h1 | h1
      · exact Or.inl (List.eq_of_mem_replicate h1)
      · right
        simpa using h1
    | cons x ls2 =>
      by_cases he : l = []
      · subst he
        rw [capJ_cons_blank] at hm
        rcases ih (p + 1) hrest m hm with h1 | h1
        · exact Or.inl h1
        · exact Or.inr (List.mem_cons_of_mem [] h1)
      · obtain ⟨z, hz⟩ := capJ_pos (x :: ls2) 1 (by omega)
        rw [capJ_cons_ne p l x ls2 he, List.append_assoc, hz, splitNL_replicate_append,
          splitNL_append_free l z hl] at hm
        rcases List.mem_append.mp hm with h1 | h1
        · exact Or.inl (List.eq_of_mem_replicate h1)
        · rcases List.mem_cons.mp h1 with h2 | h2
          · exact Or.inr (h2 ▸ List.mem_cons_self l (x :: ls2))
          · have hmem : m ∈ splitNL (capJ 1 (x :: ls2)) := by
              rw [hz, splitNL_cons_nl]
              exact List.mem_cons_of_mem [] h2
            rcases ih 1 hrest m hmem with h3 | h3
            · exact Or.inl h3
            · exact Or.inr (List.mem_cons_of_mem l h3)

theorem filterNE_replicate (k : Nat) :
    List.filter (fun l => !l.isEmpty) (List.replicate k ([] : List Char)) = [] := by
  induction k with
  | zero => rfl
  | succ n ih => rw [List.replicate_succ]; simp [ih]

theorem capJ_filter : ∀ (ls : List (List Char)) (p : Nat), (∀ l ∈ ls, '\n' ∉ l) →
    List.filter (fun l => !l.isEmpty) (splitNL (capJ p ls)) =
      List.filter (fun l => !l.isEmpty) ls := by
  intro ls
  induction ls with
  | nil =>
    intro p _
    rw [capJ_nil, ← List.append_nil (List.replicate (min p 3) '\n'), splitNL_replicate_append,
      List.filter_append, filterNE_replicate]
    simp [splitNL]
  | cons l ls ih =>
    intro p hfree
    have hl : '\n' ∉ l := hfree l (List.mem_cons_self l ls)
    have hrest : ∀ a ∈ ls, '\n' ∉ a := fun a ha => hfree a (List.mem_cons_of_mem l ha)
    cases ls with
    | nil =>
      rw [capJ_single, splitNL_replicate_append, splitNL_of_free l hl, List.filter_append,
        filterNE_replicate]
      simp
    | cons x ls2 =>
      by_cases he : l = []
      · subst he
        rw [capJ_cons_blank, ih (p + 1) hrest]
        simp
      · obtain ⟨z, hz⟩ := capJ_pos (x :: ls2) 1 (by omega)
        have hzf : List.filter (fun l => !l.isEmpty) (splitNL z) =
            List.filter (fun l => !l.isEmpty) (x :: ls2) := by
          have := ih 1 hrest
          rw [hz, splitNL_cons_nl] at this
          simpa using this
        rw [capJ_cons_ne p l x ls2 he, List.append_assoc, hz, splitNL_replicate_append,
          splitNL_append_free l z hl, List.filter_append, filterNE_replicate]
        simp [he, hzf]

/-! ### Newline runs in collapsed output are bounded by three -/

theorem leadNL_cons_nl (cs : List Char) : leadNL ('\n' :: cs) = leadNL cs + 1 := by
  simp [leadNL]

theorem leadNL_cons_ne (c : Char) (cs : List Char) (h : ¬ c = '\n') : leadNL (c :: cs) = 0 := by
  simp [leadNL, h]

theorem leadNL_replicate (j : Nat) (x : List Char) :
    leadNL (List.replicate j '\n' ++ x) = j + leadNL x := by
  induction j with
  | zero => simp
  | succ n ih => rw [List.replicate_succ, List.cons_append, leadNL_cons_nl, ih]; omega

theorem leadNL_all_nl : ∀ s : List Char, (∀ c ∈ s, c = '\n') → leadNL s = s.length := by
  intro s
  induction s with
  | nil => intro _; rfl
  | cons c cs ih =>
    intro h
    have hc : c = '\n' := h c (List.mem_cons_self c cs)
    subst hc
    rw [leadNL_cons_nl, ih (fun d hd => h d (List.mem_cons_of_mem _ hd))]
    simp

/-- Every suffix of a collapsed string starts with at most three newlines:
the collapse pass leaves no run of four or more newlines anywhere. -/
theorem collapse_leadNL : ∀ (cs : List Char) (p : Nat) (t s : List Char),
    t ++ s = collapseNLAux p cs → leadNL s ≤ 3 := by
  intro cs
  induction cs with
  | nil =>
    intro p t s h
    have hrep : t ++ s = List.replicate (min p 3) '\n' := h
    have hnl : ∀ c ∈ s, c = '\n' := fun c hc =>
      List.eq_of_mem_replicate (hrep ▸ List.mem_append_right t hc)
    have hlen : t.length + s.length = min p 3 := by
      have := congrArg List.length hrep
      simpa using this
    rw [leadNL_all_nl s hnl]
    omega
  | cons c cs ih =>
    intro p t s h
    by_cases hc : c = '\n'
    · subst hc
      rw [collapse_cons_nl] at h
      exact ih (p + 1) t s h
    · rw [collapse_cons_ne p c cs hc] at h
      rcases List.append_eq_append_iff.mp h with ⟨a2, ha1, ha2⟩ | ⟨c2, hc1, hc2⟩
      · have hnl : ∀ d ∈ a2, d = '\n' := fun d hd =>
          List.eq_of_mem_replicate (ha1 ▸ List.mem_append_right t hd)
        have ha2rep : a2 = List.replicate a2.length '\n' := by
          rw [List.eq_replicate_iff]
          exact ⟨rfl, hnl⟩
        have hlen : t.length + a2.length = min p 3 := by
          have := congrArg List.length ha1
          simp at this
          omega
        rw [ha2, ha2rep, leadNL_replicate, leadNL_cons_ne c _ hc]
        omega
      · cases c2 with
        | nil =>
          simp at hc2
          rw [← hc2, leadNL_cons_ne c _ hc]
          omega
        | cons d c3 =>
          have hd : d = c ∧ c :: cs ≠ [] := by
            constructor
            · have := congrArg (fun z => z.head?) hc2
              simpa using this.symm
            · simp
          have htail : collapseNLAux 0 cs = c3 ++ s := by
            have := congrArg List.tail hc2
            simpa using this
          exact ih 0 c3 s htail.symm

/-- The collapse pass preserves a final non-newline character. -/
theorem collapse_concat : ∀ (ys : List Char) (p : Nat) (c : Char), ¬ c = '\n' →
    ∃ zs, collapseNLAux p (ys ++ [c]) = zs ++ [c] := by
  intro ys
  induction ys with
  | nil =>
    intro p c h
    refine ⟨List.replicate (min p 3) '\n', ?_⟩
    rw [List.nil_append]
    rw [show ([c] : List Char) = c :: [] from rfl, collapse_cons_ne p c [] h]
    simp [collapseNLAux]
  | cons y ys ih =>
    intro p c h
    by_cases hy : y = '\n'
    · subst hy
      rw [List.cons_append, collapse_cons_nl]
      exact ih (p + 1) c h
    · obtain ⟨zs, hzs⟩ := ih 0 c h
      refine ⟨List.replicate (min p 3) '\n' ++ y :: zs, ?_⟩
      rw [List.cons_append, collapse_cons_ne p y _ hy, hzs]
      simp

/-- Splitting a string that ends with a non-newline character yields a
nonempty final line. -/
theorem splitNL_concat : ∀ (x : List Char) (c : Char), ¬ c = '\n' →
    ∃ L w, splitNL (x ++ [c]) = L ++ [w] ∧ w ≠ [] := by
  intro x
  induction x with
  | nil =>
    intro c h
    obtain ⟨a, t, ha, hsplit⟩ := splitNL_cons_ne c [] h
    have ha2 : a = [] ∧ t = [] := by
      constructor
      · have := congrArg (fun z => z.head?) ha
        simp [splitNL] at this
        exact this
      · have := congrArg List.tail ha
        simp [splitNL] at this
        exact this
    refine ⟨[], [c], ?_, by simp⟩
    rw [List.nil_append]
    simpa [ha2.1, ha2.2] using hsplit
  | cons z x ih =>
    intro c h
    by_cases hz : z = '\n'
    · subst hz
      obtain ⟨L, w, hLw, hw⟩ := ih c h
      refine ⟨[] :: L, w, ?_, hw⟩
      rw [List.cons_append, splitNL_cons_nl, hLw]
      rfl
    · obtain ⟨a, t, ha, hsplit⟩ := splitNL_cons_ne z (x ++ [c]) hz
      obtain ⟨L, w, hLw, hw⟩ := ih c h
      rw [hLw] at ha
      cases L with
      | nil =>
        simp at ha
        refine ⟨[], z :: w, ?_, by simp⟩
        rw [List.cons_append, hsplit, ha.1, ha.2]
        simp
      | cons b L2 =>
        simp at ha
        refine ⟨(z :: b) :: L2, w, ?_, hw⟩
        rw [List.cons_append, hsplit, ha.1]
        rw [ha.2.symm]
        rfl

/-! ### Joining around an append -/

theorem joinNL_concat : ∀ (L : List (List Char)) (w : List Char),
    ∃ pre, joinNL (L ++ [w]) = pre ++ w := by
  intro L
  induction L with
  | nil => intro w; exact ⟨[], rfl⟩
  | cons l L ih =>
    intro w
    obtain ⟨pre, hpre⟩ := ih w
    refine ⟨l ++ '\n' :: pre, ?_⟩
    rw [List.cons_append, joinNL_cons l (L ++ [w]) (by simp), hpre]
    simp

theorem joinNL_append : ∀ (X Y : List (List Char)), X ≠ [] → Y ≠ [] →
    joinNL (X ++ Y) = joinNL X ++ '\n' :: joinNL Y := by
  intro X
  induction X with
  | nil => intro Y h _; exact absurd rfl h
  | cons x X ih =>
    intro Y _ hY
    cases X with
    | nil =>
      rw [List.cons_append, List.nil_append, joinNL_cons x Y hY]
      rfl
    | cons x2 X2 =>
      rw [List.cons_append, joinNL_cons x ((x2 :: X2) ++ Y) (by simp),
        ih Y (by simp) hY, joinNL_cons x (x2 :: X2) (by simp)]
      simp

/-! ### The line pass -/

/-- One keep-or-drop property: a line emitted by the line pass is either
an emitted blank (the empty string) or a kept input line, which is
non-blank and matches no pattern. -/
theorem cleanLoop_mem : ∀ (pats : List (List Char → Bool)) (ls : List (List Char)) (st : Bool)
    (l : List Char), l ∈ cleanLoop pats ls st →
    l = [] ∨ (isBlankL l = false ∧ matchesAny pats (pystrip l) = false ∧ l ∈ ls) := by
  intro pats ls
  induction ls with
  | nil => intro st l hl; simp [cleanLoop] at hl
  | cons line rest ih =>
    intro st l hl
    by_cases hb : (pystrip line).isEmpty
    · rw [show cleanLoop pats (line :: rest) st =
          (if st then [] :: cleanLoop pats rest st else cleanLoop pats rest st) by
        simp [cleanLoop, hb]] at hl
      by_cases hst : st
      · rw [if_pos hst] at hl
        rcases List.mem_cons.mp hl with h1 | h1
        · exact Or.inl h1
        · rcases ih st l h1 with h2 | h2
          · exact Or.inl h2
          · exact Or.inr ⟨h2.1, h2.2.1, List.mem_cons_of_mem line h2.2.2⟩
      · rw [if_neg hst] at hl
        rcases ih st l hl with h2 | h2
        · exact Or.inl h2
        · exact Or.inr ⟨h2.1, h2.2.1, List.mem_cons_of_mem line h2.2.2⟩
    · by_cases hm : matchesAny pats (pystrip line)
      · rw [show cleanLoop pats (line :: rest) st = cleanLoop pats rest st by
          simp [cleanLoop, hb, hm]] at hl
        rcases ih st l hl with h2 | h2
        · exact Or.inl h2
        · exact Or.inr ⟨h2.1, h2.2.1, List.mem_cons_of_mem line h2.2.2⟩
      · rw [show cleanLoop pats (line :: rest) st = line :: cleanLoop pats rest true by
          simp [cleanLoop, hb, hm]] at hl
        rcases List.mem_cons.mp hl with h1 | h1
        · subst h1
          exact Or.inr ⟨by simpa [isBlankL] using hb, by simpa using hm,
            List.mem_cons_self l rest⟩
        · rcases ih true l h1 with h2 | h2
          · exact Or.inl h2
          · exact Or.inr ⟨h2.1, h2.2.1, List.mem_cons_of_mem line h2.2.2⟩

/-- On a list whose lines are all emitted blanks or kept lines, the line
pass in started state is the identity. -/
theorem cleanLoop_id : ∀ (pats : List (List Char → Bool)) (ls : List (List Char)),
    (∀ l ∈ ls, l = [] ∨ (isBlankL l = false ∧ matchesAny pats (pystrip l) = false)) →
    cleanLoop pats ls true = ls := by
  intro pats ls
  induction ls with
  | nil => intro _; rfl
  | cons line rest ih =>
    intro h
    have hrest : ∀ l ∈ rest, l = [] ∨ (isBlankL l = false ∧ matchesAny pats (pystrip l) = false) :=
      fun l hl => h l (List.mem_cons_of_mem line hl)
    rcases h line (List.mem_cons_self line rest) with h1 | h1
    · subst h1
      show cleanLoop pats ([] :: rest) true = [] :: rest
      rw [show cleanLoop pats ([] :: rest) true = [] :: cleanLoop pats rest true by
        simp [cleanLoop, pystrip]]
      rw [ih hrest]
    · have hb : ¬ (pystrip line).isEmpty := by
        simpa [isBlankL] using h1.1
      have hm : ¬ matchesAny pats (pystrip line) := by simpa using h1.2
      rw [show cleanLoop pats (line :: rest) true = line :: cleanLoop pats rest true by
        simp [cleanLoop, hb, hm]]
      rw [ih hrest]

/-- Starting unstarted on a kept head line. -/
theorem cleanLoop_id0 (pats : List (List Char → Bool)) (h : List Char)
    (rest : List (List Char)) (hb : isBlankL h = false)
    (hm : matchesAny pats (pystrip h) = false) :
    cleanLoop pats (h :: rest) false = h :: cleanLoop pats rest true := by
  have hb2 : ¬ (pystrip h).isEmpty := by simpa [isBlankL] using hb
  have hm2 : ¬ matchesAny pats (pystrip h) := by simpa using hm
  simp [cleanLoop, hb2, hm2]

/-! ### Edge trimming -/

theorem dropWhile_head_false {α : Type} (p : α → Bool) :
    ∀ (L : List α) (h : α) (r : List α), List.dropWhile p L = h :: r → p h = false := by
  intro L
  induction L with
  | nil => intro h r heq; simp at heq
  | cons a L ih =>
    intro h r heq
    rw [List.dropWhile_cons] at heq
    by_cases hp : p a
    · rw [if_pos hp] at heq
      exact ih h r heq
    · rw [if_neg hp] at heq
      have : a = h := (List.cons.injEq a L h r ▸ heq).1
      rw [← this]
      simpa using hp

theorem dropWhile_concat_last {α : Type} (p : α → Bool) (A : List α) (d : α)
    (hd : p d = false) : ∃ pre, List.dropWhile p (A ++ [d]) = pre ++ [d] := by
  induction A with
  | nil =>
    refine ⟨[], ?_⟩
    simp [List.dropWhile_cons, hd]
  | cons a A ih =>
    by_cases hp : p a
    · obtain ⟨pre, hpre⟩ := ih
      refine ⟨pre, ?_⟩
      rw [List.cons_append, List.dropWhile_cons, if_pos hp]
      exact hpre
    · refine ⟨a :: A, ?_⟩
      rw [List.cons_append, List.dropWhile_cons, if_neg hp]

/-- A nonempty trimmed list starts and ends with a non-blank line. -/
theorem trim_shape (X : List (List Char)) (h : List Char) (rest : List (List Char))
    (hX : trimBlanks X = h :: rest) :
    isBlankL h = false ∧ ∃ L w, trimBlanks X = L ++ [w] ∧ isBlankL w = false := by
  have hEne : (X.dropWhile isBlankL).reverse.dropWhile isBlankL ≠ [] := by
    intro hE
    rw [trimBlanks, hE] at hX
    simp at hX
  cases hEeq : (X.dropWhile isBlankL).reverse.dropWhile isBlankL with
  | nil => exact absurd hEeq hEne
  | cons w Z =>
    have hwf : isBlankL w = false := dropWhile_head_false isBlankL _ w Z hEeq
    have hDne : X.dropWhile isBlankL ≠ [] := by
      intro hD
      apply hEne
      rw [hD]
      rfl
    cases hDeq : X.dropWhile isBlankL with
    | nil => exact absurd hDeq hDne
    | cons d D2 =>
      have hdf : isBlankL d = false := dropWhile_head_false isBlankL X d D2 hDeq
      obtain ⟨pre, hpre⟩ := dropWhile_concat_last isBlankL D2.reverse d hdf
      have htd : trimBlanks X = d :: pre.reverse := by
        rw [trimBlanks, hDeq, List.reverse_cons, hpre, List.reverse_append]
        rfl
      have hhd : h = d := by
        rw [hX] at htd
        exact (List.cons.injEq h rest d pre.reverse ▸ htd).1
      constructor
      · rw [hhd]; exact hdf
      · refine ⟨Z.reverse, w, ?_, hwf⟩
        rw [trimBlanks, hEeq, List.reverse_cons]

/-- Trimming does nothing to a list whose first and last lines are
non-blank. -/
theorem trim_eq_self (M : List (List Char)) (h : List Char) (rest : List (List Char))
    (L : List (List Char)) (w : List Char) (hM1 : M = h :: rest) (hbh : isBlankL h = false)
    (hM2 : M = L ++ [w]) (hbw : isBlankL w = false) : trimBlanks M = M := by
  have h1 : M.dropWhile isBlankL = M := by
    rw [hM1, List.dropWhile_cons, if_neg (by simp [hbh])]
  have h2 : M.reverse = w :: L.reverse := by rw [hM2]; simp
  have h3 : List.dropWhile isBlankL (w :: L.reverse) = w :: L.reverse := by
    rw [List.dropWhile_cons, if_neg (by simp [hbw])]
  rw [trimBlanks, h1, h2, h3, ← h2]
  simp

theorem trim_subset (X : List (List Char)) (l : List Char) (hl : l ∈ trimBlanks X) : l ∈ X := by
  rw [trimBlanks, List.mem_reverse] at hl
  have h1 : l ∈ (X.dropWhile isBlankL).reverse := (List.dropWhile_sublist _).subset hl
  rw [List.mem_reverse] at h1
  exact (List.dropWhile_sublist _).subset h1

theorem filterNE_dropWhile_blank : ∀ (X : List (List Char)),
    (∀ l ∈ X, isBlankL l = true → l = []) →
    List.filter (fun l => !l.isEmpty) (X.dropWhile isBlankL) =
      List.filter (fun l => !l.isEmpty) X := by
  intro X
  induction X with
  | nil => intro _; rfl
  | cons a X ih =>
    intro h
    by_cases hba : isBlankL a = true
    · have ha : a = [] := h a (List.mem_cons_self a X) hba
      rw [List.dropWhile_cons, if_pos (by simp [hba]),
        ih (fun l hl hbl => h l (List.mem_cons_of_mem a hl) hbl), ha]
      simp
    · rw [List.dropWhile_cons, if_neg (by simpa using hba)]

theorem filterNE_trim (X : List (List Char)) (hX : ∀ l ∈ X, isBlankL l = true → l = []) :
    List.filter (fun l => !l.isEmpty) (trimBlanks X) =
      List.filter (fun l => !l.isEmpty) X := by
  have hD : ∀ l ∈ (X.dropWhile isBlankL).reverse, isBlankL l = true → l = [] := by
    intro l hl hbl
    rw [List.mem_reverse] at hl
    exact hX l ((List.dropWhile_sublist _).subset hl) hbl
  rw [trimBlanks, List.filter_reverse, filterNE_dropWhile_blank _ hD, List.filter_reverse,
    List.reverse_reverse, filterNE_dropWhile_blank X hX]

/-- The nonempty lines emitted by the line pass are exactly the kept
lines, in order. -/
theorem cleanLoop_filter : ∀ (pats : List (List Char → Bool)) (ls : List (List Char)) (st : Bool),
    List.filter (fun l => !l.isEmpty) (cleanLoop pats ls st) =
      List.filter (fun l => !(isBlankL l) && !(matchesAny pats (pystrip l))) ls := by
  intro pats ls
  induction ls with
  | nil => intro st; rfl
  | cons line rest ih =>
    intro st
    by_cases hb : (pystrip line).isEmpty
    · have hbl : isBlankL line = true := by simpa [isBlankL] using hb
      have hRHS : List.filter (fun l => !(isBlankL l) && !(matchesAny pats (pystrip l)))
          (line :: rest) =
          List.filter (fun l => !(isBlankL l) && !(matchesAny pats (pystrip l))) rest := by
        rw [List.filter_cons]
        simp [hbl]
      rw [show cleanLoop pats (line :: rest) st =
          (if st then [] :: cleanLoop pats rest st else cleanLoop pats rest st) by
        simp [cleanLoop, hb]]
      by_cases hst : st
      · rw [if_pos hst, hRHS, ← ih st]
        rw [List.filter_cons]
        simp
      · rw [if_neg hst, hRHS, ← ih st]
    · have hbl : isBlankL line = false := by simpa [isBlankL] using hb
      by_cases hm : matchesAny pats (pystrip line)
      · rw [show cleanLoop pats (line :: rest) st = cleanLoop pats rest st by
          simp [cleanLoop, hb, hm]]
        rw [List.filter_cons]
        simp [hm, ih st]
      · have hne : ¬ line.isEmpty := by
          intro hle
          apply hb
          have : line = [] := by simpa using hle
          simp [this, pystrip]
        rw [show cleanLoop pats (line :: rest) st = line :: cleanLoop pats rest true by
          simp [cleanLoop, hb, hm]]
        rw [List.filter_cons, List.filter_cons]
        simp [hbl, hm, hne, ih true]

/-! ### Structure of the cleaned output -/

theorem clean_text_eq (t : List Char) (ps : List (List Char → Bool)) :
    clean_text t ps =
      collapseNL (joinNL (trimBlanks (cleanLoop (remove_patterns ++ ps) (splitNL t) false))) :=
  rfl

theorem isBlankL_nil : isBlankL [] = true := rfl

theorem collapseNL_nil : collapseNL [] = [] := by
  simp [collapseNL, collapseNLAux]

/-- Every line of a cleaned text is an emitted blank (empty) or a kept
line of the input: non-blank, matching no pattern, and present verbatim
among the input lines. -/
theorem clean_mem (t : List Char) (ps : List (List Char → Bool)) (m : List Char)
    (hm : m ∈ splitNL (clean_text t ps)) :
    m = [] ∨ (isBlankL m = false ∧ matchesAny (remove_patterns ++ ps) (pystrip m) = false ∧
      m ∈ splitNL t) := by
  have hfree : ∀ l ∈ trimBlanks (cleanLoop (remove_patterns ++ ps) (splitNL t) false),
      '\n' ∉ l := by
    intro l hl
    rcases cleanLoop_mem (remove_patterns ++ ps) _ _ l (trim_subset _ l hl) with h1 | h1
    · simp [h1]
    · exact mem_splitNL_free t l h1.2.2
  have hOcap : clean_text t ps =
      capJ 0 (trimBlanks (cleanLoop (remove_patterns ++ ps) (splitNL t) false)) := by
    rw [clean_text_eq]
    exact capJ_eq _ 0 hfree
  rw [hOcap] at hm
  rcases capJ_mem _ 0 hfree m hm with h1 | h1
  · exact Or.inl h1
  · rcases cleanLoop_mem (remove_patterns ++ ps) _ _ m (trim_subset _ m h1) with h2 | h2
    · exact Or.inl h2
    · exact Or.inr ⟨h2.1, h2.2.1, h2.2.2⟩

/-- A nonempty cleaned text has a nonempty first line and a nonempty last
line. -/
theorem clean_edges (t : List Char) (ps : List (List Char → Bool))
    (hne : clean_text t ps ≠ []) :
    (∃ h mt, splitNL (clean_text t ps) = h :: mt ∧ h ≠ []) ∧
    (∃ L w, splitNL (clean_text t ps) = L ++ [w] ∧ w ≠ []) := by
  cases hcl : trimBlanks (cleanLoop (remove_patterns ++ ps) (splitNL t) false) with
  | nil =>
    exfalso
    apply hne
    rw [clean_text_eq, hcl]
    exact collapseNL_nil
  | cons h0 rest0 =>
    obtain ⟨hbh0, L0, w0, hLw0, hbw0⟩ := trim_shape _ h0 rest0 hcl
    have hmemc : ∀ l ∈ h0 :: rest0, '\n' ∉ l := by
      intro l hl
      rw [← hcl] at hl
      rcases cleanLoop_mem (remove_patterns ++ ps) _ _ l (trim_subset _ l hl) with h1 | h1
      · simp [h1]
      · exact mem_splitNL_free t l h1.2.2
    have hO : clean_text t ps = collapseNLAux 0 (joinNL (h0 :: rest0)) := by
      rw [clean_text_eq, hcl]
      rfl
    have hh0ne : h0 ≠ [] := by
      intro hh
      rw [hh] at hbh0
      simp [isBlankL_nil] at hbh0
    cases hh0 : h0 with
    | nil => exact absurd hh0 hh0ne
    | cons c0 h0t =>
      have hc0 : ¬ c0 = '\n' := by
        intro hcc
        apply hmemc h0 (List.mem_cons_self h0 rest0)
        rw [hh0, hcc]
        exact List.mem_cons_self '\n' h0t
      have hJ : ∃ J2, joinNL (h0 :: rest0) = c0 :: J2 := by
        cases rest0 with
        | nil => exact ⟨h0t, by rw [hh0]; rfl⟩
        | cons r rest1 =>
          refine ⟨h0t ++ '\n' :: joinNL (r :: rest1), ?_⟩
          rw [joinNL_cons h0 (r :: rest1) (by simp), hh0]
          rfl
      obtain ⟨J2, hJ2⟩ := hJ
      have hOc : clean_text t ps = c0 :: collapseNLAux 0 J2 := by
        rw [hO, hJ2, collapse_cons_ne 0 c0 J2 hc0]
        simp
      constructor
      · obtain ⟨a, t2, _, hsplit⟩ := splitNL_cons_ne c0 (collapseNLAux 0 J2) hc0
        refine ⟨c0 :: a, t2, ?_, by simp⟩
        rw [hOc, hsplit]
      · have hw0ne : w0 ≠ [] := by
          intro hh
          rw [hh] at hbw0
          simp [isBlankL_nil] at hbw0
        have hLw0c : h0 :: rest0 = L0 ++ [w0] := by
          rw [← hcl]
          exact hLw0
        rcases List.eq_nil_or_concat w0 with hwnil | ⟨w0p, ce, hwce⟩
        · exact absurd hwnil hw0ne
        · have hwce2 : w0 = w0p ++ [ce] := by rw [hwce]; simp
          have hce : ¬ ce = '\n' := by
            intro hcc
            apply hmemc w0 (by rw [hLw0c]; exact List.mem_append_right L0 (by simp))
            rw [hwce2, hcc]
            exact List.mem_append_right w0p (by simp)
          obtain ⟨pre, hpre⟩ := joinNL_concat L0 w0
          have hJoin : joinNL (h0 :: rest0) = (pre ++ w0p) ++ [ce] := by
            rw [hLw0c, hpre, hwce2]
            simp
          obtain ⟨zs, hzs⟩ := collapse_concat (pre ++ w0p) 0 ce hce
          obtain ⟨L, w, hLw, hwne⟩ := splitNL_concat zs ce hce
          refine ⟨L, w, ?_, hwne⟩
          rw [hO, hJoin, hzs, hLw]

theorem clean_collapse (t : List Char) (ps : List (List Char → Bool)) :
    collapseNL (clean_text t ps) = clean_text t ps := by
  rw [clean_text_eq]
  exact collapseNL_idem _

theorem clean_no4 (t : List Char) (ps : List (List Char → Bool)) (t2 s : List Char)
    (h : clean_text t ps = t2 ++ s) : leadNL s ≤ 3 := by
  rw [clean_text_eq] at h
  exact collapse_leadNL _ 0 t2 s h.symm

theorem clean_text_nil (ps : List (List Char → Bool)) : clean_text [] ps = [] := by
  have h1 : cleanLoop (remove_patterns ++ ps) (splitNL []) false = [] := by
    simp [splitNL, cleanLoop, pystrip]
  rw [clean_text_eq, h1]
  exact collapseNL_nil

/-- A text whose lines are all blanks-or-kept, with nonempty first and
last lines, and which the collapse pass fixes, is a fixed point of the
Boilerplate Filter. -/
theorem clean_stable (x : List Char) (ps : List (List Char → Bool))
    (hmem : ∀ l ∈ splitNL x, l = [] ∨
      (isBlankL l = false ∧ matchesAny (remove_patterns ++ ps) (pystrip l) = false))
    (hedge : x = [] ∨ ((∃ h mt, splitNL x = h :: mt ∧ h ≠ []) ∧
      (∃ L w, splitNL x = L ++ [w] ∧ w ≠ [])))
    (hcoll : collapseNL x = x) :
    clean_text x ps = x := by
  rcases hedge with hx | ⟨⟨h, mt, hsplit, hhne⟩, ⟨L, w, hsplit2, hwne⟩⟩
  · rw [hx]
    exact clean_text_nil ps
  · have hh : isBlankL h = false ∧ matchesAny (remove_patterns ++ ps) (pystrip h) = false := by
      rcases hmem h (by rw [hsplit]; exact List.mem_cons_self h mt) with h1 | h1
      · exact absurd h1 hhne
      · exact h1
    have hw : isBlankL w = false ∧ matchesAny (remove_patterns ++ ps) (pystrip w) = false := by
      rcases hmem w (by rw [hsplit2]; exact List.mem_append_right L (by simp)) with h1 | h1
      · exact absurd h1 hwne
      · exact h1
    have hloop : cleanLoop (remove_patterns ++ ps) (splitNL x) false = splitNL x := by
      rw [hsplit, cleanLoop_id0 _ h mt hh.1 hh.2, cleanLoop_id]
      intro l hl
      rcases hmem l (by rw [hsplit]; exact List.mem_cons_of_mem h hl) with h1 | h1
      · exact Or.inl h1
      · exact Or.inr h1
    have htrim : trimBlanks (splitNL x) = splitNL x :=
      trim_eq_self _ h mt L w hsplit hh.1 hsplit2 hw.1
    rw [clean_text_eq, hloop, htrim, joinNL_splitNL]
    exact hcoll

/-! ### Claims -/

/-- C3: the Boilerplate Filter is idempotent: for every text and every
list of custom patterns, cleaning the cleaned output again returns it
unchanged. -/
theorem c3_clean_text_idempotent (t : List Char) (ps : List (List Char → Bool)) :
    clean_text (clean_text t ps) ps = clean_text t ps := by
  apply clean_stable
  · intro l hl
    rcases clean_mem t ps l hl with h1 | h1
    · exact Or.inl h1
    · exact Or.inr ⟨h1.1, h1.2.1⟩
  · by_cases hne : clean_text t ps = []
    · exact Or.inl hne
    · exact Or.inr (clean_edges t ps hne)
  · exact clean_collapse t ps

/-- C4: the Classifier reports text-bearing exactly on a sampled text of
strictly more than 50 whitespace-delimited words; at 50 or fewer words
(including exactly 50) it reports image-based. -/
theorem c4_classifier_threshold (t : List Char) :
    (50 < word_count (pystrip t) → is_text_based_pdf (some t) = true) ∧
    (word_count (pystrip t) ≤ 50 → is_text_based_pdf (some t) = false) := by
  constructor
  · intro h
    simp [is_text_based_pdf, h]
  · intro h
    simp [is_text_based_pdf]
    omega

/-- C7: a per-page OCR failure does not abort the OCR Extractor: for
pages [P1 ok, P2 fails, P3 ok] the result is the text of P1, the literal
placeholder for page 2, and the text of P3, in page order, joined by
double newlines, and the function returns a value (is total). -/
theorem c7_ocr_page_isolation (p1 p3 : List Char) :
    extract_with_ocr [some p1, none, some p3] =
      p1 ++ ("\n\n[OCR ERROR on page 2]\n\n").data ++ p3 := by
  have key : ("\n\n[OCR ERROR on page 2]\n\n").data ++ p3 =
      '\n' :: '\n' :: (("[OCR ERROR on page 2]").data ++ '\n' :: '\n' :: p3) := rfl
  rw [List.append_assoc, key]
  rfl

/-- C8: a failed sampling call makes the Classifier return false without
propagating any error, and the pipeline then proceeds with the OCR
extractor. -/
theorem c8_classifier_failsafe (nc : Bool) (hs : List (List Char → Bool))
    (ft : Except ToolError (List Char)) (pages : List (Option (List Char))) :
    is_text_based_pdf none = false ∧
    run_pipeline false false nc hs none ft pages =
      Except.ok (if nc then extract_with_ocr pages
        else clean_text (extract_with_ocr pages) hs) := by
  exact ⟨rfl, rfl⟩

/-- C9: when the text-layer path is chosen (forced, or selected by a
text-bearing classification), a failure of the full pdftotext call is
surfaced unchanged by extract_with_pdftotext and terminates the pipeline
with that error, with no OCR fallback. -/
theorem c9_pdftotext_error_propagation (ftext nc : Bool) (hs : List (List Char → Bool))
    (sample : Option (List Char)) (e : ToolError) (pages : List (Option (List Char)))
    (h : ftext = true ∨ is_text_based_pdf sample = true) :
    extract_with_pdftotext (Except.error e) = Except.error e ∧
    run_pipeline false ftext nc hs sample (Except.error e) pages = Except.error e := by
  refine ⟨rfl, ?_⟩
  rcases h with h | h
  · subst h
    rfl
  · cases ftext <;> simp [run_pipeline, h, extract_with_pdftotext]

/-- C9 witness: a timeout of the forced text-layer path is returned to
the caller unchanged. -/
theorem c9_witness :
    extract_with_pdftotext (Except.error ToolError.timeout) = Except.error ToolError.timeout ∧
    run_pipeline false true true [] none (Except.error ToolError.timeout) [] =
      Except.error ToolError.timeout :=
  c9_pdftotext_error_propagation true true [] none ToolError.timeout [] (Or.inl rfl)

/-- C10: on an input whose every line is blank or matches a removal
pattern, the Boilerplate Filter returns the empty string. -/
theorem c10_all_removed_empty (t : List Char) (ps : List (List Char → Bool))
    (h : ∀ l ∈ splitNL t, isBlankL l = true ∨
      matchesAny (remove_patterns ++ ps) (pystrip l) = true) :
    clean_text t ps = [] := by
  have hloop : ∀ (ls : List (List Char)),
      (∀ l ∈ ls, isBlankL l = true ∨ matchesAny (remove_patterns ++ ps) (pystrip l) = true) →
      cleanLoop (remove_patterns ++ ps) ls false = [] := by
    intro ls
    induction ls with
    | nil => intro _; rfl
    | cons line rest ih =>
      intro hh
      have htail : ∀ l ∈ rest, isBlankL l = true ∨
          matchesAny (remove_patterns ++ ps) (pystrip l) = true :=
        fun l hl => hh l (List.mem_cons_of_mem line hl)
      rcases hh line (List.mem_cons_self line rest) with h1 | h1
      · have hb : (pystrip line).isEmpty := by simpa [isBlankL] using h1
        rw [show cleanLoop (remove_patterns ++ ps) (line :: rest) false =
            cleanLoop (remove_patterns ++ ps) rest false by simp [cleanLoop, hb]]
        exact ih htail
      · by_cases hb : (pystrip line).isEmpty
        · rw [show cleanLoop (remove_patterns ++ ps) (line :: rest) false =
              cleanLoop (remove_patterns ++ ps) rest false by simp [cleanLoop, hb]]
          exact ih htail
        · rw [show cleanLoop (remove_patterns ++ ps) (line :: rest) false =
              cleanLoop (remove_patterns ++ ps) rest false by simp [cleanLoop, hb, h1]]
          exact ih htail
  rw [clean_text_eq, hloop (splitNL t) h]
  exact collapseNL_nil

/-- C10 witness: a text of one page number line, a blank line, and
another page number line cleans to the empty string. -/
theorem c10_witness :
    (∀ l ∈ splitNL ("42\n\n7").data, isBlankL l = true ∨
      matchesAny (remove_patterns ++ []) (pystrip l) = true) ∧
    clean_text ("42\n\n7").data [] = [] :=
  ⟨by decide, c10_all_removed_empty ("42\n\n7").data [] (by decide)⟩

/-- C4 witness: a 51-word sample classifies as text-bearing and a 50-word
sample does not. -/
theorem c4_witness :
    is_text_based_pdf (some ("a a a a a a a a a a a a a a a a a a a a a a a a a a a a a a a a a a a a a a a a a a a a a a a a a a a").data) = true ∧
    is_text_based_pdf (some ("b b b b b b b b b b b b b b b b b b b b b b b b b b b b b b b b b b b b b b b b b b b b b b b b b b").data) = false :=
  ⟨(c4_classifier_threshold ("a a a a a a a a a a a a a a a a a a a a a a a a a a a a a a a a a a a a a a a a a a a a a a a a a a a").data).1 (by decide),
   (c4_classifier_threshold ("b b b b b b b b b b b b b b b b b b b b b b b b b b b b b b b b b b b b b b b b b b b b b b b b b b").data).2 (by decide)⟩

/-- C1 counterexample: on scenario A the Boilerplate Filter does not
return the claimed text with a single blank line before the final line:
the four-newline run collapses to three newlines (two blank lines), not
to one blank line. -/
theorem c1_counterexample :
    clean_text
        ("Page 1\n\nCopyright © 2020 Some Press\nReal content here.\n\n\n\n42\nMore content.").data
        [] ≠
      ("Page 1\n\nReal content here.\n\nMore content.").data := by
  decide

/-- C1 amended: on scenario A the Boilerplate Filter removes the
standalone 42 line and the copyright line and collapses the four-newline
run to exactly three newlines, returning the text with two blank lines
between the two final content lines. -/
theorem c1_amended :
    clean_text
        ("Page 1\n\nCopyright © 2020 Some Press\nReal content here.\n\n\n\n42\nMore content.").data
        [] =
      ("Page 1\n\nReal content here.\n\n\nMore content.").data := by
  decide

/-- C2 counterexample: the line pass emits a run of two blank lines after
an emitted non-blank line as two blank lines, not as one. -/
theorem c2_counterexample :
    cleanLoop remove_patterns (splitNL ("a\n\n\nb").data) false = [['a'], [], [], ['b']] ∧
    ¬ cleanLoop remove_patterns (splitNL ("a\n\n\nb").data) false = [['a'], [], ['b']] := by
  exact ⟨by decide, by decide⟩

/-- C2 amended: the line pass preserves a run of blank lines situated
after a kept line one-for-one, emitting one empty line per blank input
line; no blank-run collapsing happens during the line pass (the only
collapsing is the later regex normalisation). -/
theorem c2_amended (pats : List (List Char → Bool)) (k : List Char)
    (bs rest : List (List Char)) (hk1 : isBlankL k = false)
    (hk2 : matchesAny pats (pystrip k) = false) (hbs : ∀ b ∈ bs, isBlankL b = true) :
    cleanLoop pats (k :: (bs ++ rest)) false =
      k :: (List.replicate bs.length [] ++ cleanLoop pats rest true) := by
  rw [cleanLoop_id0 pats k (bs ++ rest) hk1 hk2]
  congr 1
  clear hk1 hk2
  revert hbs
  induction bs with
  | nil => intro _; simp
  | cons b bs ih =>
    intro hbs
    have hb : (pystrip b).isEmpty := by
      simpa [isBlankL] using hbs b (List.mem_cons_self b bs)
    rw [show cleanLoop pats ((b :: bs) ++ rest) true =
        [] :: cleanLoop pats (bs ++ rest) true by simp [cleanLoop, hb]]
    rw [ih (fun x hx => hbs x (List.mem_cons_of_mem b hx))]
    simp [List.replicate_succ]

/-- C2 amended witness: the two blank lines of a concrete run are both
emitted by the line pass. -/
theorem c2_witness :
    cleanLoop remove_patterns (['a'] :: ([[], []] ++ [['b']])) false =
      ['a'] :: (List.replicate 2 [] ++ cleanLoop remove_patterns [['b']] true) :=
  c2_amended remove_patterns ['a'] [[], []] [['b']] (by decide) (by decide) (by decide)

/-- C5 counterexample: a blank line can match a custom removal pattern
(here one matching the empty stripped line) and still appear in the
output, because the line pass tests patterns only on non-blank lines. -/
theorem c5_counterexample :
    ([] : List Char) ∈ splitNL ("a\n\nb").data ∧
    matchesAny (remove_patterns ++ [fun l => l.isEmpty]) (pystrip []) = true ∧
    ([] : List Char) ∈ splitNL (clean_text ("a\n\nb").data [fun l => l.isEmpty]) := by
  exact ⟨by decide, by decide, by decide⟩

/-- C5 amended: every NON-BLANK input line whose stripped form matches a
built-in or custom pattern is absent from the cleaned output, and the
non-blank lines of the cleaned output are exactly the non-blank,
non-matching input lines, verbatim and in input order (so no two
non-blank lines are merged and none is reordered). -/
theorem c5_amended (t : List Char) (ps : List (List Char → Bool)) :
    (∀ l ∈ splitNL t, isBlankL l = false →
      matchesAny (remove_patterns ++ ps) (pystrip l) = true →
      l ∉ splitNL (clean_text t ps)) ∧
    List.filter (fun l => !(isBlankL l)) (splitNL (clean_text t ps)) =
      List.filter (fun l => !(isBlankL l) && !(matchesAny (remove_patterns ++ ps) (pystrip l)))
        (splitNL t) := by
  constructor
  · intro l _ hbl hml hlout
    rcases clean_mem t ps l hlout with h1 | h1
    · rw [h1] at hbl
      simp [isBlankL_nil] at hbl
    · simp [h1.2.1] at hml
  · have hfree : ∀ l ∈ trimBlanks (cleanLoop (remove_patterns ++ ps) (splitNL t) false),
        '\n' ∉ l := by
      intro l hl
      rcases cleanLoop_mem (remove_patterns ++ ps) _ _ l (trim_subset _ l hl) with h1 | h1
      · simp [h1]
      · exact mem_splitNL_free t l h1.2.2
    have hOcap : clean_text t ps =
        capJ 0 (trimBlanks (cleanLoop (remove_patterns ++ ps) (splitNL t) false)) := by
      rw [clean_text_eq]
      exact capJ_eq _ 0 hfree
    have hX : ∀ l ∈ cleanLoop (remove_patterns ++ ps) (splitNL t) false,
        isBlankL l = true → l = [] := by
      intro l hl hbl
      rcases cleanLoop_mem (remove_patterns ++ ps) _ _ l hl with h1 | h1
      · exact h1
      · rw [h1.1] at hbl
        exact absurd hbl (by simp)
    have h1 : List.filter (fun l => !(isBlankL l)) (splitNL (clean_text t ps)) =
        List.filter (fun l => !l.isEmpty) (splitNL (clean_text t ps)) := by
      apply List.filter_congr
      intro m hm
      rcases clean_mem t ps m hm with h2 | h2
      · simp [h2, isBlankL_nil]
      · cases hm2 : m with
        | nil => rw [hm2] at h2; simp [isBlankL_nil] at h2
        | cons a as =>
          rw [← hm2]
          rw [hm2] at h2 ⊢
          simp [h2.1, List.isEmpty]
    rw [h1, hOcap, capJ_filter _ 0 hfree, filterNE_trim _ hX, cleanLoop_filter]

/-- C5 witness: the page-number line 42 is removed from a concrete text
and its non-blank output lines are exactly the two kept content lines. -/
theorem c5_witness :
    (['4', '2'] ∉ splitNL (clean_text ("x\n42\ny").data [])) ∧
    List.filter (fun l => !(isBlankL l)) (splitNL (clean_text ("x\n42\ny").data [])) =
      List.filter
        (fun l => !(isBlankL l) && !(matchesAny (remove_patterns ++ []) (pystrip l)))
        (splitNL ("x\n42\ny").data) :=
  ⟨(c5_amended ("x\n42\ny").data []).1 ['4', '2'] (by decide) (by decide) (by decide),
   (c5_amended ("x\n42\ny").data []).2⟩

/-- C6: the cleaned output never contains a run of three consecutive
blank lines (so no run of more than two), and when the output is
nonempty its first and last lines are non-blank. -/
theorem c6_output_blank_invariants (t : List Char) (ps : List (List Char → Bool)) :
    (¬ ∃ A B a b c, splitNL (clean_text t ps) = A ++ a :: b :: c :: B ∧
      isBlankL a = true ∧ isBlankL b = true ∧ isBlankL c = true) ∧
    (clean_text t ps ≠ [] →
      ∃ h mt L w, splitNL (clean_text t ps) = h :: mt ∧ isBlankL h = false ∧
        splitNL (clean_text t ps) = L ++ [w] ∧ isBlankL w = false) := by
  constructor
  · rintro ⟨A, B, a, b, c, hM, hba, hbb, hbc⟩
    have hblank_mem : ∀ x, isBlankL x = true → x ∈ splitNL (clean_text t ps) → x = [] := by
      intro x hbx hxm
      rcases clean_mem t ps x hxm with h1 | h1
      · exact h1
      · rw [h1.1] at hbx
        exact absurd hbx (by simp)
    have hamem : a ∈ splitNL (clean_text t ps) := by
      rw [hM]; exact List.mem_append_right A (by simp)
    have hbmem : b ∈ splitNL (clean_text t ps) := by
      rw [hM]; exact List.mem_append_right A (by simp)
    have hcmem : c ∈ splitNL (clean_text t ps) := by
      rw [hM]; exact List.mem_append_right A (by simp)
    have ha0 := hblank_mem a hba hamem
    have hb0 := hblank_mem b hbb hbmem
    have hc0 := hblank_mem c hbc hcmem
    subst ha0
    subst hb0
    subst hc0
    have hne : clean_text t ps ≠ [] := by
      intro hz
      rw [hz] at hM
      have hlen := congrArg List.length hM
      simp [splitNL] at hlen
      omega
    obtain ⟨⟨h, mt, hsplit, hhne⟩, ⟨L, w, hsplit2, hwne⟩⟩ := clean_edges t ps hne
    cases A with
    | nil =>
      rw [hsplit] at hM
      simp at hM
      exact hhne hM.1
    | cons a0 A2 =>
      cases B with
      | nil =>
        have hMw : splitNL (clean_text t ps) = ((a0 :: A2) ++ [[], []]) ++ [[]] := by
          rw [hM]
          simp
        rw [hsplit2] at hMw
        have hG := congrArg List.getLast? hMw
        rw [List.getLast?_concat, List.getLast?_concat] at hG
        exact hwne (Option.some.inj hG)
      | cons b0 B2 =>
        have hAne : (a0 :: A2) ≠ [] := by simp
        have hTne : ([[], [], []] ++ (b0 :: B2) : List (List Char)) ≠ [] := by simp
        have hJM : joinNL (splitNL (clean_text t ps)) = clean_text t ps := joinNL_splitNL _
        rw [hM] at hJM
        have hM2 : (a0 :: A2) ++ [] :: [] :: [] :: (b0 :: B2) =
            (a0 :: A2) ++ ([[], [], []] ++ (b0 :: B2)) := rfl
        rw [hM2, joinNL_append _ _ hAne hTne,
          joinNL_append [[], [], []] (b0 :: B2) (by simp) (by simp)] at hJM
        have hJ3 : joinNL [[], [], []] = ['\n', '\n'] := rfl
        rw [hJ3] at hJM
        have hsuffix : clean_text t ps =
            joinNL (a0 :: A2) ++ ('\n' :: '\n' :: '\n' :: '\n' :: joinNL (b0 :: B2)) := by
          rw [← hJM]
          simp
        have hlead := clean_no4 t ps (joinNL (a0 :: A2))
          ('\n' :: '\n' :: '\n' :: '\n' :: joinNL (b0 :: B2)) hsuffix
        rw [leadNL_cons_nl, leadNL_cons_nl, leadNL_cons_nl, leadNL_cons_nl] at hlead
        omega
  · intro hne
    obtain ⟨⟨h, mt, hsplit, hhne⟩, ⟨L, w, hsplit2, hwne⟩⟩ := clean_edges t ps hne
    refine ⟨h, mt, L, w, hsplit, ?_, hsplit2, ?_⟩
    · rcases clean_mem t ps h (by rw [hsplit]; exact List.mem_cons_self h mt) with h1 | h1
      · exact absurd h1 hhne
      · exact h1.1
    · rcases clean_mem t ps w
        (by rw [hsplit2]; exact List.mem_append_right L (by simp)) with h1 | h1
      · exact absurd h1 hwne
      · exact h1.1

/-- C6 witness: a concrete two-line text with one internal blank line has
no triple-blank run in its cleaned output and non-blank first and last
output lines. -/
theorem c6_witness :
    (¬ ∃ A B a b c, splitNL (clean_text ("x\n\ny").data []) = A ++ a :: b :: c :: B ∧
      isBlankL a = true ∧ isBlankL b = true ∧ isBlankL c = true) ∧
    (∃ h mt L w, splitNL (clean_text ("x\n\ny").data []) = h :: mt ∧ isBlankL h = false ∧
      splitNL (clean_text ("x\n\ny").data []) = L ++ [w] ∧ isBlankL w = false) :=
  ⟨(c6_output_blank_invariants ("x\n\ny").data []).1,
   (c6_output_blank_invariants ("x\n\ny").data []).2 (by decide)⟩
